import Mathlib

/-!
Verification of `src/generators.rs` of ristretto-bulletproofs.

The curve and hash primitives (`RistrettoPoint`, `Scalar`, `Sha512`,
`RistrettoPoint::from_hash`, point compression) live in the external crates
`curve25519_dalek` and `sha2`; they are modelled abstractly by the `Curve`
structure below: the Ristretto group is an additive commutative group that is
a module over its scalar ring, `sha512` finalizes a byte stream to a digest,
`from_uniform_bytes` maps a digest onto the curve, and `compress` gives the
compressed byte encoding of a point.  All code of `generators.rs` is embedded
on top of this model; Rust slice indexing, which panics when out of range, is
embedded with the panic made explicit.
-/

namespace RistrettoBulletproofs

/-- Byte strings (`&[u8]` in the source) are modelled as lists of naturals. -/
abbrev Bytes := List Nat

/-- Bytes of an ASCII string literal, modelling Rust `b"..."`. -/
def strBytes (s : String) : Bytes := s.data.map Char.toNat

/-- Abstract model of the external curve/hash primitives used by
`generators.rs`: the Ristretto point group, its scalar ring, SHA-512,
the uniform hash-to-curve map, and compressed point encoding. -/
structure Curve where
  Point : Type
  Scalar : Type
  instPointAddGroup : AddCommGroup Point
  instScalarRing : CommRing Scalar
  instModule : Module Scalar Point
  instPointDecEq : DecidableEq Point
  sha512 : Bytes → Bytes
  from_uniform_bytes : Bytes → Point
  compress : Point → Bytes

attribute [instance] Curve.instPointAddGroup Curve.instScalarRing
  Curve.instModule Curve.instPointDecEq

/-- Model of `RistrettoPoint::from_hash`: finalize the accumulated SHA-512 state and
map the 512-bit digest onto the curve. -/
def fromHash (C : Curve) (input : Bytes) : C.Point :=
  C.from_uniform_bytes (C.sha512 input)

/-- Embedding of `GeneratorsChain`: holds the one mutable cursor `next_point`. -/
structure GeneratorsChain (C : Curve) where
  next_point : C.Point

/-- Embedding of `GeneratorsChain::new`: hash `b"GeneratorsChainInit"` followed by the
label, map to the curve, store as the cursor. -/
def GeneratorsChain.new (C : Curve) (label : Bytes) : GeneratorsChain C :=
  { next_point := fromHash C (strBytes "GeneratorsChainInit" ++ label) }

/-- Embedding of `<GeneratorsChain as Default>::default()`: the empty label. -/
def GeneratorsChain.defaultChain (C : Curve) : GeneratorsChain C :=
  GeneratorsChain.new C []

/-- Embedding of `<GeneratorsChain as Iterator>::next`: return `Some(current_point)` and
replace the cursor by the hash-to-curve image of
`b"GeneratorsChainNext"` followed by the compressed current point.
State passing is explicit: the result pairs the emitted item with the
advanced chain. -/
def GeneratorsChain.next {C : Curve} (c : GeneratorsChain C) :
    Option C.Point × GeneratorsChain C :=
  let current_point := c.next_point
  (some current_point,
    { next_point :=
        fromHash C (strBytes "GeneratorsChainNext" ++ C.compress current_point) })

/-- Embedding of `Iterator::take(k).collect()`: draw up to `k` items from the chain
(stopping early if `next` ever returns `None`). -/
def GeneratorsChain.take {C : Curve} (c : GeneratorsChain C) : Nat → List C.Point
  | 0 => []
  | k + 1 =>
    match c.next with
    | (some p, c') => p :: c'.take k
    | (none, _) => []

/-- Embedding of `PedersenGenerators`: the pair of Pedersen commitment base points. -/
structure PedersenGenerators (C : Curve) where
  B : C.Point
  B_blinding : C.Point

/-- Embedding of `PedersenGenerators::new`: accepts the user's points verbatim. -/
def PedersenGenerators.new (C : Curve) (B B_blinding : C.Point) :
    PedersenGenerators C :=
  { B, B_blinding }

/-- Model of `ristretto::multiscalar_mul`: the sum of each scalar times the paired
point. -/
def multiscalar_mul (C : Curve) (scalars : List C.Scalar)
    (points : List C.Point) : C.Point :=
  (List.zip scalars points).foldl (fun acc sp => acc + sp.1 • sp.2) 0

/-- Embedding of `PedersenGenerators::commit`: multiscalar multiplication of
`[value, blinding]` against `[B, B_blinding]`. -/
def PedersenGenerators.commit {C : Curve} (pg : PedersenGenerators C)
    (value blinding : C.Scalar) : C.Point :=
  multiscalar_mul C [value, blinding] [pg.B, pg.B_blinding]

/-- Embedding of `<PedersenGenerators as Default>::default()`: each base is the first
item (`next().unwrap()`) of a fresh chain with its own label. -/
def PedersenGenerators.defaultGens (C : Curve) : PedersenGenerators C where
  B := ((GeneratorsChain.new C (strBytes "Bulletproofs.Generators.B")).next.1).get rfl
  B_blinding :=
    ((GeneratorsChain.new C (strBytes "Bulletproofs.Generators.B_blinding")).next.1).get rfl

/-- Embedding of `Generators`: the bank owning the per-bit generator vectors. -/
structure Generators (C : Curve) where
  n : Nat
  m : Nat
  pedersen_generators : PedersenGenerators C
  G : List C.Point
  H : List C.Point

/-- Embedding of `GeneratorsView`: the read-only window handed to proof code. -/
structure GeneratorsView (C : Curve) where
  pedersen_generators : PedersenGenerators C
  G : List C.Point
  H : List C.Point

/-- Embedding of `Generators::new`: draw `n * m` points from a chain seeded by the
compressed encoding of `B` into `G`, and `n * m` points from a chain seeded
by the compressed encoding of `B_blinding` into `H`. -/
def Generators.new (C : Curve) (pedersen_generators : PedersenGenerators C)
    (n m : Nat) : Generators C :=
  { n, m, pedersen_generators,
    G := (GeneratorsChain.new C (C.compress pedersen_generators.B)).take (n * m),
    H := (GeneratorsChain.new C (C.compress pedersen_generators.B_blinding)).take (n * m) }

/-- Embedding of `Generators::all`: view over the complete `G` and `H` vectors. -/
def Generators.all {C : Curve} (g : Generators C) : GeneratorsView C :=
  { pedersen_generators := g.pedersen_generators, G := g.G, H := g.H }

/-- Rust slice `&xs[lo..hi]`: defined when `lo ≤ hi ≤ xs.len()`, otherwise
the program panics (modelled as `none`). -/
def sliceRange {α : Type _} (xs : List α) (lo hi : Nat) : Option (List α) :=
  if lo ≤ hi ∧ hi ≤ xs.length then some ((xs.drop lo).take (hi - lo)) else none

/-- The outcome of `Generators::share`: either a view, or the panic raised
by an out-of-range slice index.  The source has no error constructor at
all — an invalid index can only surface as this panic. -/
inductive ShareResult (C : Curve) where
  | ok : GeneratorsView C → ShareResult C
  | panicOutOfRange : ShareResult C

/-- Embedding of `Generators::share`: slice `G` and `H` at `[n*j .. n*(j+1))` with Rust's
panicking slice indexing. -/
def Generators.share {C : Curve} (g : Generators C) (j : Nat) : ShareResult C :=
  let lower := g.n * j
  let upper := g.n * (j + 1)
  match sliceRange g.G lower upper, sliceRange g.H lower upper with
  | some gs, some hs =>
      .ok { pedersen_generators := g.pedersen_generators, G := gs, H := hs }
  | _, _ => .panicOutOfRange

/-- One step of the derivation chain's cursor update, as a function of the
current point. -/
def chainStep (C : Curve) (p : C.Point) : C.Point :=
  fromHash C (strBytes "GeneratorsChainNext" ++ C.compress p)

/-- The `i`-th point a chain seeded with `label` emits: `i` cursor updates
applied to the hash-to-curve image of the init-domain hash of the label. -/
def chainOutput (C : Curve) (label : Bytes) (i : Nat) : C.Point :=
  (chainStep C)^[i] (fromHash C (strBytes "GeneratorsChainInit" ++ label))

/-- A small concrete instantiation of the abstract primitives, used to
evaluate the embedded code on explicit inputs: points and scalars are
integers, the digest is the input with one byte appended, hash-to-curve
folds the bytes into an integer, and compression records the absolute
value. -/
abbrev toyCurve : Curve where
  Point := ℤ
  Scalar := ℤ
  instPointAddGroup := inferInstance
  instScalarRing := inferInstance
  instModule := inferInstance
  instPointDecEq := inferInstance
  sha512 := fun l => l ++ [0]
  from_uniform_bytes := fun l => (l.foldl (fun a b => a * 256 + b) 7 : Nat)
  compress := fun p => [p.natAbs]

/-! ### Basic facts about the derivation chain -/

theorem GeneratorsChain.next_fst {C : Curve} (c : GeneratorsChain C) :
    c.next.1 = some c.next_point := rfl

theorem GeneratorsChain.next_snd {C : Curve} (c : GeneratorsChain C) :
    c.next.2.next_point = chainStep C c.next_point := rfl

/-- The `take` of a chain, described pointwise through `chainStep`. -/
theorem GeneratorsChain.take_eq_map {C : Curve} (c : GeneratorsChain C)
    (k : Nat) :
    c.take k = (List.range k).map (fun i => (chainStep C)^[i] c.next_point) := by
  induction k generalizing c with
  | zero => rfl
  | succ k ih =>
    rw [List.range_succ_eq_map, List.map_cons, List.map_map]
    show c.next_point :: GeneratorsChain.take _ k = _
    rw [ih]
    simp only [Function.comp_def, Function.iterate_succ_apply, List.map_map]
    rfl

/-- The `take` of a freshly seeded chain lists the first `k` chain outputs. -/
theorem GeneratorsChain.take_new {C : Curve} (label : Bytes) (k : Nat) :
    (GeneratorsChain.new C label).take k
      = (List.range k).map (chainOutput C label) := by
  rw [GeneratorsChain.take_eq_map]
  rfl

theorem GeneratorsChain.take_length {C : Curve} (c : GeneratorsChain C)
    (k : Nat) : (c.take k).length = k := by
  rw [GeneratorsChain.take_eq_map, List.length_map, List.length_range]

/-! ### Basic facts about the generator bank -/

theorem Generators.new_G_length (C : Curve) (pg : PedersenGenerators C)
    (n m : Nat) : (Generators.new C pg n m).G.length = n * m :=
  GeneratorsChain.take_length _ _

theorem Generators.new_H_length (C : Curve) (pg : PedersenGenerators C)
    (n m : Nat) : (Generators.new C pg n m).H.length = n * m :=
  GeneratorsChain.take_length _ _

/-- For an in-range party index, `share` succeeds and returns exactly the
contiguous window `[n*j, n*(j+1))` of the bank's vectors. -/
theorem Generators.share_ok (C : Curve) (pg : PedersenGenerators C)
    (n m j : Nat) (h : j < m) :
    (Generators.new C pg n m).share j
      = ShareResult.ok
          { pedersen_generators := pg,
            G := (((Generators.new C pg n m).G).drop (n * j)).take n,
            H := (((Generators.new C pg n m).H).drop (n * j)).take n } := by
  have hlow : n * j ≤ n * (j + 1) := Nat.mul_le_mul_left n (Nat.le_succ j)
  have hupp : n * (j + 1) ≤ n * m := Nat.mul_le_mul_left n h
  have hsub : n * (j + 1) - n * j = n := by
    rw [Nat.mul_succ, Nat.add_sub_cancel_left]
  show (match sliceRange (Generators.new C pg n m).G (n * j) (n * (j + 1)),
        sliceRange (Generators.new C pg n m).H (n * j) (n * (j + 1)) with
    | some gs, some hs =>
        ShareResult.ok
          { pedersen_generators := (Generators.new C pg n m).pedersen_generators,
            G := gs, H := hs }
    | _, _ => ShareResult.panicOutOfRange) = _
  rw [sliceRange, sliceRange, Generators.new_G_length, Generators.new_H_length,
    if_pos ⟨hlow, hupp⟩, if_pos ⟨hlow, hupp⟩, hsub]
  rfl

/-! ### Claim theorems -/

/-- Claim C1.  The claim requires `share(j)` with `j ≥ parties` to return an
explicit invalid-index error, never an uncontrolled crash; the code instead
performs unchecked slice indexing.  At bits = 1, parties = 1, the
out-of-range call `share(1)` computes the window `[1, 2)` over length-1
vectors and the slice panics: no invalid-index error value is ever produced
(`ShareResult` has no such constructor to produce). -/
theorem share_out_of_range_panics :
    (Generators.new toyCurve (PedersenGenerators.new toyCurve 1 2) 1 1).share 1
      = ShareResult.panicOutOfRange := rfl

/-- Claim C2: two chains constructed from identical label bytes emit
bit-identical sequences for the first k elements drawn, for every k. -/
theorem chain_determinism (C : Curve) (l1 l2 : Bytes) (k : Nat)
    (h : l1 = l2) :
    (GeneratorsChain.new C l1).take k = (GeneratorsChain.new C l2).take k := by
  rw [h]

/-- Witness for C2 at a concrete label and k = 3. -/
theorem chain_determinism_witness :
    strBytes "test" = strBytes "test" ∧
      (GeneratorsChain.new toyCurve (strBytes "test")).take 3
        = (GeneratorsChain.new toyCurve (strBytes "test")).take 3 :=
  ⟨rfl, chain_determinism toyCurve (strBytes "test") (strBytes "test") 3 rfl⟩

/-- Claim C3: for every bank built with bits = n and parties = m and every
j < m, `share(j)` succeeds and its G slice equals elementwise the contiguous
window `[n*j, n*(j+1))` of `all()`'s G, and likewise for H. -/
theorem share_eq_window_of_all (C : Curve) (pg : PedersenGenerators C)
    (n m j : Nat) (h : j < m) :
    ∃ v : GeneratorsView C,
      (Generators.new C pg n m).share j = ShareResult.ok v ∧
      v.G = (((Generators.new C pg n m).all).G.drop (n * j)).take n ∧
      v.H = (((Generators.new C pg n m).all).H.drop (n * j)).take n :=
  ⟨_, Generators.share_ok C pg n m j h, rfl, rfl⟩

/-- Witness for C3 at bits = 2, parties = 3, j = 1 on the concrete model. -/
theorem share_eq_window_of_all_witness :
    1 < 3 ∧
      ∃ v : GeneratorsView toyCurve,
        (Generators.new toyCurve (PedersenGenerators.new toyCurve 1 2) 2 3).share 1
            = ShareResult.ok v ∧
        v.G = (((Generators.new toyCurve (PedersenGenerators.new toyCurve 1 2) 2 3).all).G.drop
            (2 * 1)).take 2 ∧
        v.H = (((Generators.new toyCurve (PedersenGenerators.new toyCurve 1 2) 2 3).all).H.drop
            (2 * 1)).take 2 :=
  ⟨by decide,
    share_eq_window_of_all toyCurve (PedersenGenerators.new toyCurve 1 2) 2 3 1
      (by decide)⟩

/-- Claim C4: Pedersen commitments are additively homomorphic —
commit(v1, r1) + commit(v2, r2) = commit(v1 + v2, r1 + r2) exactly, as an
equation in the curve group. -/
theorem commit_homomorphism (C : Curve) (pg : PedersenGenerators C)
    (v1 v2 r1 r2 : C.Scalar) :
    pg.commit v1 r1 + pg.commit v2 r2 = pg.commit (v1 + v2) (r1 + r2) := by
  simp only [PedersenGenerators.commit, multiscalar_mul, List.zip,
    List.zipWith_cons_cons, List.zipWith_nil_right, List.foldl_cons,
    List.foldl_nil, zero_add, add_smul]
  abel

/-- Claim C5: `commit(value, blinding)` is exactly
value·B + blinding·B_blinding.  The embedding of `commit` is a pure function
of the (immutable) `PedersenGenerators` value, matching the source's `&self`
receiver: it cannot modify `B`, `B_blinding` or any other state. -/
theorem commit_eq_scalar_combination (C : Curve) (pg : PedersenGenerators C)
    (value blinding : C.Scalar) :
    pg.commit value blinding = value • pg.B + blinding • pg.B_blinding := by
  simp only [PedersenGenerators.commit, multiscalar_mul, List.zip,
    List.zipWith_cons_cons, List.zipWith_nil_right, List.foldl_cons,
    List.foldl_nil, zero_add]

/-- Claim C6: `Generators::new(bases, n, m)` sets G to exactly the first
n·m outputs of a chain seeded by the compressed encoding of B, and H to
exactly the first n·m outputs of a chain seeded by the compressed encoding
of B_blinding; with n = 0 or m = 0 construction succeeds with empty G and H. -/
theorem new_draws_from_seeded_chains (C : Curve) (pg : PedersenGenerators C)
    (n m : Nat) :
    (Generators.new C pg n m).G
        = (List.range (n * m)).map (chainOutput C (C.compress pg.B)) ∧
    (Generators.new C pg n m).H
        = (List.range (n * m)).map (chainOutput C (C.compress pg.B_blinding)) ∧
    ((n = 0 ∨ m = 0) →
      (Generators.new C pg n m).G = [] ∧ (Generators.new C pg n m).H = []) := by
  refine ⟨GeneratorsChain.take_new _ _, GeneratorsChain.take_new _ _, ?_⟩
  rintro (rfl | rfl) <;>
    simp [Generators.new, GeneratorsChain.take]

/-- Witness for C6's degenerate-dimension clause at n = 0, m = 2. -/
theorem new_draws_from_seeded_chains_witness :
    ((0 : Nat) = 0 ∨ (2 : Nat) = 0) ∧
      (Generators.new toyCurve (PedersenGenerators.new toyCurve 1 2) 0 2).G = [] ∧
      (Generators.new toyCurve (PedersenGenerators.new toyCurve 1 2) 0 2).H = [] :=
  ⟨Or.inl rfl,
    (new_draws_from_seeded_chains toyCurve (PedersenGenerators.new toyCurve 1 2)
      0 2).2.2 (Or.inl rfl)⟩

/-- Claim C7: the chain's first emitted point is the hash-to-curve image of
the 512-bit hash of the init domain string followed by the label; each step
emits the current cursor and replaces it by the hash-to-curve image of the
hash of the "next" domain string followed by the compressed current point;
and advancing always yields a point (`next` is always `some`). -/
theorem chain_construction_and_step (C : Curve) (label : Bytes)
    (c : GeneratorsChain C) :
    (GeneratorsChain.new C label).next.1
        = some (C.from_uniform_bytes
            (C.sha512 (strBytes "GeneratorsChainInit" ++ label))) ∧
    c.next = (some c.next_point,
        { next_point := C.from_uniform_bytes
            (C.sha512 (strBytes "GeneratorsChainNext" ++ C.compress c.next_point)) }) ∧
    (c.next).1.isSome = true :=
  ⟨rfl, rfl, rfl⟩

/-- Claim C8: the default bases are the first outputs of two independent
chains with the labels "Bulletproofs.Generators.B" and
"Bulletproofs.Generators.B_blinding". -/
theorem default_bases_from_labeled_chains (C : Curve) :
    (PedersenGenerators.defaultGens C).B
        = chainOutput C (strBytes "Bulletproofs.Generators.B") 0 ∧
    (PedersenGenerators.defaultGens C).B_blinding
        = chainOutput C (strBytes "Bulletproofs.Generators.B_blinding") 0 :=
  ⟨rfl, rfl⟩

/-- Counterexample to claim C9 as stated: with bits = 0 and parties = 0 the
bank built from the default bases has G = H = [], and empty vectors are
(vacuously) elementwise equal — so G and H are not "never elementwise
equal" over all dimensions. -/
theorem GH_equal_at_zero_dims :
    (Generators.new toyCurve (PedersenGenerators.defaultGens toyCurve) 0 0).G
      = (Generators.new toyCurve (PedersenGenerators.defaultGens toyCurve) 0 0).H :=
  rfl

/-- Claim C9, amended: for dimensions with bits·parties ≥ 1, and bases whose
two seeding chains have distinct first outputs (as holds for the actual
SHA-512/Ristretto primitives on the default bases), the G and H vectors are
not elementwise equal. -/
theorem GH_vectors_distinct (C : Curve) (pg : PedersenGenerators C)
    (n m : Nat) (h1 : 1 ≤ n * m)
    (h2 : chainOutput C (C.compress pg.B) 0
        ≠ chainOutput C (C.compress pg.B_blinding) 0) :
    (Generators.new C pg n m).G ≠ (Generators.new C pg n m).H := by
  intro hGH
  rw [show (Generators.new C pg n m).G
        = (GeneratorsChain.new C (C.compress pg.B)).take (n * m) from rfl,
    show (Generators.new C pg n m).H
        = (GeneratorsChain.new C (C.compress pg.B_blinding)).take (n * m) from rfl,
    GeneratorsChain.take_new, GeneratorsChain.take_new] at hGH
  have h0 : (0 : Nat) < n * m := h1
  have hhead := congrArg (fun l => l[0]?) hGH
  simp only [List.getElem?_map, List.getElem?_range, h0, if_pos] at hhead
  exact h2 (by simpa using hhead)

/-- Witness for amended C9 at bits = 1, parties = 1 with bases (1, 2) in the
concrete model, where the two seeds hash to distinct points. -/
theorem GH_vectors_distinct_witness :
    1 ≤ 1 * 1 ∧
      chainOutput toyCurve (toyCurve.compress (PedersenGenerators.new toyCurve 1 2).B) 0
        ≠ chainOutput toyCurve (toyCurve.compress (PedersenGenerators.new toyCurve 1 2).B_blinding) 0 ∧
      (Generators.new toyCurve (PedersenGenerators.new toyCurve 1 2) 1 1).G
        ≠ (Generators.new toyCurve (PedersenGenerators.new toyCurve 1 2) 1 1).H :=
  ⟨by decide, by decide,
    GH_vectors_distinct toyCurve (PedersenGenerators.new toyCurve 1 2) 1 1
      (by decide) (by decide)⟩

/-- Claim C10: with bits = 0 the window `[0·j, 0·(j+1))` is the in-bounds
empty range `[0, 0)` for every j — including j ≥ parties — so `share(j)`
always succeeds and both slices are empty. -/
theorem share_zero_bits_always_ok (C : Curve) (pg : PedersenGenerators C)
    (m j : Nat) :
    (Generators.new C pg 0 m).share j
      = ShareResult.ok { pedersen_generators := pg, G := [], H := [] } := by
  show (match sliceRange (Generators.new C pg 0 m).G (0 * j) (0 * (j + 1)),
        sliceRange (Generators.new C pg 0 m).H (0 * j) (0 * (j + 1)) with
    | some gs, some hs =>
        ShareResult.ok
          { pedersen_generators := (Generators.new C pg 0 m).pedersen_generators,
            G := gs, H := hs }
    | _, _ => ShareResult.panicOutOfRange) = _
  simp [sliceRange, Nat.zero_mul, Generators.new, GeneratorsChain.take]

end RistrettoBulletproofs
